import Mathlib

/-!
Verification of the diff/review engine of the `lumen` side-by-side diff
viewer: a shallow embedding in Lean 4 of the line/word diff algorithm
(`diff_algo.rs`), tab expansion and selection model (`types.rs`),
selection extraction (`coordinates.rs`), annotation remapping and the
diff cache (`state.rs`), and the annotation-export path validation
(`render/modal.rs`), together with theorems settling the specified
properties.

Strings are modelled as `List Char` (`Str`); Rust byte lengths and byte
slicing are modelled through `Char.utf8Size`.
-/

namespace Lumen

/-- Rust strings modelled as lists of characters. -/
abbrev Str := List Char

/-- UTF-8 byte length of a string (Rust `str::len`). -/
def byteLen (s : Str) : Nat := (s.map Char.utf8Size).sum

/-- Rust `str::trim_end`: drop trailing whitespace. -/
def trimEnd (s : Str) : Str := (s.reverse.dropWhile Char.isWhitespace).reverse

/-- Rust `str::trim`: drop leading and trailing whitespace. -/
def trimStr (s : Str) : Str := trimEnd (s.dropWhile Char.isWhitespace)

/-! ## `types.rs`: tab expansion -/

/-- Loop body of `expand_tabs` (`types.rs`): stateful column counter,
each tab becomes `tab_width - col % tab_width` spaces. -/
def expandTabsGo (w : Nat) (col : Nat) : Str → Str
  | [] => []
  | c :: cs =>
    if c = '\t' then
      let sp := w - col % w
      List.replicate sp ' ' ++ expandTabsGo w (col + sp) cs
    else
      c :: expandTabsGo w (col + 1) cs

/-- `expand_tabs` (`types.rs`): with `tab_width = 0` all tabs are removed
(`s.replace('\t', "")`), otherwise tabs expand at `tab_width` stops. -/
def expand_tabs (s : Str) (tab_width : Nat) : Str :=
  if tab_width = 0 then s.filter (fun c => c ≠ '\t')
  else expandTabsGo tab_width 0 s

/-! ## `types.rs`: diff data model -/

/-- `ChangeType` (`types.rs`). -/
inductive ChangeType where
  | Equal
  | Delete
  | Insert
  | Modified
  deriving DecidableEq, Repr

/-- `InlineSegment` (`types.rs`): text fragment plus emphasis flag. -/
structure InlineSegment where
  text : Str
  emphasized : Bool
  deriving DecidableEq, Repr

/-- `DiffLine` (`types.rs`). -/
structure DiffLine where
  old_line : Option (Nat × Str)
  new_line : Option (Nat × Str)
  change_type : ChangeType
  old_segments : Option (List InlineSegment)
  new_segments : Option (List InlineSegment)
  deriving DecidableEq, Repr

/-! ## The lexical diff primitive

`diff_algo.rs` obtains its tagged Equal/Delete/Insert change stream from
the external `similar` crate (`TextDiff::from_lines`,
`diff_unicode_words`). Modelled from the spec: a line/token-granularity
lexical diff producing a tagged Equal/Delete/Insert stream, realised as
a longest-common-subsequence diff that emits deletions before
insertions (Myers order). -/

/-- Change tags of the lexical diff stream. -/
inductive Tag where
  | equal
  | delete
  | insert
  deriving DecidableEq, Repr

/-- One tagged change of the lexical diff stream. -/
structure Change where
  tag : Tag
  value : Str
  deriving DecidableEq, Repr

/-- Length of a longest common subsequence of two token lists. -/
def lcsLen : List Str → List Str → Nat
  | [], _ => 0
  | _ :: _, [] => 0
  | x :: xs, y :: ys =>
    if x = y then lcsLen xs ys + 1
    else max (lcsLen xs (y :: ys)) (lcsLen (x :: xs) ys)
  termination_by xs ys => xs.length + ys.length

/-- Modelled from the spec: the external `similar` crate's lexical diff
("line-granularity lexical diff over old vs new, producing a tagged
Equal/Delete/Insert stream"), as an LCS diff emitting deletions before
insertions. -/
def lcsDiff : List Str → List Str → List Change
  | [], ys => ys.map (fun v => ⟨Tag.insert, v⟩)
  | x :: xs, [] => ⟨Tag.delete, x⟩ :: lcsDiff xs []
  | x :: xs, y :: ys =>
    if x = y then ⟨Tag.equal, x⟩ :: lcsDiff xs ys
    else if lcsLen (x :: xs) ys ≤ lcsLen xs (y :: ys) then
      ⟨Tag.delete, x⟩ :: lcsDiff xs (y :: ys)
    else
      ⟨Tag.insert, y⟩ :: lcsDiff (x :: xs) ys
  termination_by xs ys => xs.length + ys.length

/-- Modelled from the spec: `TextDiff::from_lines` splits the input into
lines keeping each terminating newline with its line. -/
def splitLinesKeep : Str → List Str
  | [] => []
  | c :: cs =>
    if c = '\n' then ['\n'] :: splitLinesKeep cs
    else
      match splitLinesKeep cs with
      | [] => [[c]]
      | t :: ts => (c :: t) :: ts

/-- Character class used by the modelled word tokenizer: alphanumeric
runs, whitespace runs, and runs of other characters. -/
def charClass (c : Char) : Nat :=
  if c.isAlphanum then 0 else if c.isWhitespace then 1 else 2

/-- Modelled from the spec: the token segmentation behind
`diff_unicode_words` ("token-granularity lexical diff"), grouping
maximal runs of characters of the same class; concatenation restores
the input. -/
def tokWords : Str → List Str
  | [] => []
  | c :: cs =>
    match tokWords cs with
    | [] => [[c]]
    | t :: ts =>
      match t with
      | [] => [c] :: ts
      | d :: _ => if charClass c = charClass d then (c :: t) :: ts else [c] :: t :: ts

/-- Old-side projection of a change stream: the values of Equal and
Delete changes in order. -/
def projOld (cs : List Change) : List Str :=
  cs.filterMap (fun c => match c.tag with
    | Tag.equal => some c.value
    | Tag.delete => some c.value
    | Tag.insert => none)

/-- New-side projection of a change stream: the values of Equal and
Insert changes in order. -/
def projNew (cs : List Change) : List Str :=
  cs.filterMap (fun c => match c.tag with
    | Tag.equal => some c.value
    | Tag.delete => none
    | Tag.insert => some c.value)

/-! ## `diff_algo.rs`: word-level diff -/

/-- `has_meaningful_content` (`diff_algo.rs`): any non-whitespace char. -/
def has_meaningful_content (s : Str) : Bool :=
  s.any (fun c => ¬ c.isWhitespace)

/-- The old-side segments built by the `compute_word_diff` loop: Equal
changes unemphasized, Delete changes emphasized, Insert skipped. -/
def wordSegsOld (cs : List Change) : List InlineSegment :=
  cs.filterMap (fun c => match c.tag with
    | Tag.equal => some ⟨c.value, false⟩
    | Tag.delete => some ⟨c.value, true⟩
    | Tag.insert => none)

/-- The new-side segments built by the `compute_word_diff` loop: Equal
changes unemphasized, Insert changes emphasized, Delete skipped. -/
def wordSegsNew (cs : List Change) : List InlineSegment :=
  cs.filterMap (fun c => match c.tag with
    | Tag.equal => some ⟨c.value, false⟩
    | Tag.delete => none
    | Tag.insert => some ⟨c.value, true⟩)

/-- The `unchanged_len` accumulator of `compute_word_diff`: for each
Equal change with meaningful content, the byte length of its trimmed
value. -/
def unchangedLen (cs : List Change) : Nat :=
  (cs.filterMap (fun c => match c.tag with
    | Tag.equal => if has_meaningful_content c.value then some (byteLen (trimStr c.value)) else none
    | Tag.delete => none
    | Tag.insert => none)).sum

/-- `compute_word_diff` (`diff_algo.rs`): token diff the two line texts;
suppress (return `none`) when the longer trimmed line is empty or less
than 20% of it is meaningful unchanged content (the f64 comparison
`unchanged_len / total_len < 0.20` modelled exactly as
`5 * unchanged_len < total_len`). -/
def compute_word_diff (old_text new_text : Str) :
    Option (List InlineSegment × List InlineSegment) :=
  let changes := lcsDiff (tokWords old_text) (tokWords new_text)
  let old_segments := wordSegsOld changes
  let new_segments := wordSegsNew changes
  let unchanged_len := unchangedLen changes
  let old_trimmed_len := byteLen (trimStr old_text)
  let new_trimmed_len := byteLen (trimStr new_text)
  let total_len := max old_trimmed_len new_trimmed_len
  if total_len = 0 ∨ 5 * unchanged_len < total_len then none
  else some (old_segments, new_segments)

/-! ## `diff_algo.rs`: side-by-side pairing -/

/-- One output row of the pairing loop in `compute_side_by_side`: kind
Modified/Delete/Insert according to which sides are present; word
segments computed for Modified rows. -/
def mkPairRow (old_line new_line : Option (Nat × Str)) : DiffLine :=
  let change_type := match old_line, new_line with
    | some _, some _ => ChangeType.Modified
    | some _, none => ChangeType.Delete
    | none, some _ => ChangeType.Insert
    | none, none => ChangeType.Modified  -- unreachable! in the source
  match change_type with
  | ChangeType.Modified =>
    let old_text := (old_line.map Prod.snd).getD []
    let new_text := (new_line.map Prod.snd).getD []
    match compute_word_diff old_text new_text with
    | some (old_segs, new_segs) =>
      ⟨old_line, new_line, change_type, some old_segs, some new_segs⟩
    | none => ⟨old_line, new_line, change_type, none, none⟩
  | _ => ⟨old_line, new_line, change_type, none, none⟩

/-- The `for j in 0..max_len` pairing loop of `compute_side_by_side`:
zip deletions with insertions index-wise. -/
def pairRows : List (Nat × Str) → List (Nat × Str) → List DiffLine
  | [], [] => []
  | d :: ds, [] => mkPairRow (some d) none :: pairRows ds []
  | [], i :: is' => mkPairRow none (some i) :: pairRows [] is'
  | d :: ds, i :: is' => mkPairRow (some d) (some i) :: pairRows ds is'

/-- Attach consecutive line numbers starting at `k` to a list of texts. -/
def withNums (k : Nat) : List Str → List (Nat × Str)
  | [] => []
  | t :: ts => (k, t) :: withNums (k + 1) ts

/-- Stored row text: `expand_tabs(value.trim_end(), tab_width)`. -/
def procText (tab_width : Nat) (v : Str) : Str :=
  expand_tabs (trimEnd v) tab_width

/-- Tag test used by the run-collecting loops. -/
def hasTag (t : Tag) (c : Change) : Bool := c.tag = t

theorem length_dropWhile_le {α : Type} (p : α → Bool) (l : List α) :
    (l.dropWhile p).length ≤ l.length :=
  (List.dropWhile_suffix p).length_le

/-- The main `while i < changes.len()` walk of `compute_side_by_side`
over the tagged change stream, carrying the two line counters:
an Equal change emits one two-sided row; a maximal Delete run and the
immediately following maximal Insert run are zipped by `pairRows`; an
Insert not preceded by a Delete emits a single new-only row. -/
def sbsWalk (tab_width : Nat) : Nat → Nat → List Change → List DiffLine
  | _, _, [] => []
  | o, n, ⟨Tag.equal, v⟩ :: cs =>
    let text := procText tab_width v
    ⟨some (o, text), some (n, text), ChangeType.Equal, none, none⟩ ::
      sbsWalk tab_width (o + 1) (n + 1) cs
  | o, n, ⟨Tag.insert, v⟩ :: cs =>
    ⟨none, some (n, procText tab_width v), ChangeType.Insert, none, none⟩ ::
      sbsWalk tab_width o (n + 1) cs
  | o, n, ⟨Tag.delete, v⟩ :: cs =>
    let dels := (⟨Tag.delete, v⟩ :: cs).takeWhile (hasTag Tag.delete)
    let rest1 := (⟨Tag.delete, v⟩ :: cs).dropWhile (hasTag Tag.delete)
    let ins := rest1.takeWhile (hasTag Tag.insert)
    let rest2 := rest1.dropWhile (hasTag Tag.insert)
    let deletions := withNums o (dels.map (fun c => procText tab_width c.value))
    let insertions := withNums n (ins.map (fun c => procText tab_width c.value))
    pairRows deletions insertions ++
      sbsWalk tab_width (o + dels.length) (n + ins.length) rest2
  termination_by _ _ cs => cs.length
  decreasing_by
    all_goals simp_wf
    all_goals first
      | omega
      | calc (((⟨Tag.delete, v⟩ :: cs : List Change).dropWhile
                (hasTag Tag.delete)).dropWhile (hasTag Tag.insert)).length
            ≤ ((⟨Tag.delete, v⟩ :: cs : List Change).dropWhile (hasTag Tag.delete)).length :=
              length_dropWhile_le _ _
          _ = (cs.dropWhile (hasTag Tag.delete)).length := by
              rw [List.dropWhile_cons_of_pos (by simp [hasTag])]
          _ ≤ cs.length := length_dropWhile_le _ _
          _ < cs.length + 1 := Nat.lt_succ_self _

/-- `compute_side_by_side` (`diff_algo.rs`): line diff the two blobs
and walk the change stream with both line counters starting at 1. -/
def compute_side_by_side (old new : Str) (tab_width : Nat) : List DiffLine :=
  sbsWalk tab_width 1 1 (lcsDiff (splitLinesKeep old) (splitLinesKeep new))

/-! ## `diff_algo.rs`: hunk starts -/

/-- Whether a row is a change (non-Equal). -/
def isChangeRow (l : DiffLine) : Bool := l.change_type ≠ ChangeType.Equal

/-- Loop of `find_hunk_starts`: push the index when a change starts and
the walk is not already inside a hunk. -/
def fhsGo (i : Nat) (in_hunk : Bool) : List DiffLine → List Nat
  | [] => []
  | l :: ls =>
    if isChangeRow l ∧ ¬ in_hunk then i :: fhsGo (i + 1) true ls
    else fhsGo (i + 1) (if isChangeRow l then in_hunk else false) ls

/-- `find_hunk_starts` (`diff_algo.rs`). -/
def find_hunk_starts (lines : List DiffLine) : List Nat :=
  fhsGo 0 false lines

/-! ## `types.rs`: selection model -/

/-- `DiffPanelFocus` (`types.rs`). -/
inductive DiffPanelFocus where
  | None
  | Old
  | New
  deriving DecidableEq, Repr

/-- `CursorPosition` (`types.rs`). -/
structure CursorPosition where
  line : Nat
  column : Nat
  deriving DecidableEq, Repr

/-- `SelectionMode` (`types.rs`). -/
inductive SelectionMode where
  | None
  | Character
  | Line
  deriving DecidableEq, Repr

/-- `Selection` (`types.rs`). -/
structure Selection where
  panel : DiffPanelFocus
  anchor : CursorPosition
  head : CursorPosition
  mode : SelectionMode
  deriving DecidableEq, Repr

/-- `Selection::normalized_range` (`types.rs`). -/
def Selection.normalized_range (s : Selection) : CursorPosition × CursorPosition :=
  if s.anchor.line < s.head.line ∨
      (s.anchor.line = s.head.line ∧ s.anchor.column ≤ s.head.column) then
    (s.anchor, s.head)
  else
    (s.head, s.anchor)

/-- `Selection::is_active` (`types.rs`). -/
def Selection.is_active (s : Selection) : Bool :=
  s.mode ≠ SelectionMode.None ∧ s.panel ≠ DiffPanelFocus.None

/-! ## `coordinates.rs`: selected-text extraction

Rust `&str` slicing (`&text[a..b]`) is byte-indexed and panics when an
index is not on a UTF-8 character boundary. A panic is modelled as
`none` in the outer `Option`. -/

/-- Whether byte offset `k` is a character boundary of `s`. -/
def isBoundary : Str → Nat → Bool
  | _, 0 => true
  | [], _ + 1 => false
  | c :: cs, k + 1 =>
    if k + 1 < c.utf8Size then false else isBoundary cs (k + 1 - c.utf8Size)

/-- Drop the characters covering the first `k` bytes. -/
def dropBytes : Str → Nat → Str
  | s, 0 => s
  | [], _ + 1 => []
  | c :: cs, k + 1 => dropBytes cs (k + 1 - c.utf8Size)

/-- Take the characters covering the first `k` bytes. -/
def takeBytes : Str → Nat → Str
  | _, 0 => []
  | [], _ + 1 => []
  | c :: cs, k + 1 => c :: takeBytes cs (k + 1 - c.utf8Size)

/-- Rust byte-range slice `&s[a..b]`: `none` models the panic raised
when an index is out of range or not on a character boundary. -/
def sliceBytes (s : Str) (a b : Nat) : Option Str :=
  if a ≤ b ∧ b ≤ byteLen s ∧ isBoundary s a ∧ isBoundary s b then
    some (takeBytes (dropBytes s a) (b - a))
  else none

/-- Body of the extraction loop of `extract_selected_text` for one line
index: `none` models a panic, `some acc'` the updated accumulator. -/
def extractLine (sel : Selection) (start stop : CursorPosition)
    (side_by_side : List DiffLine) (line_idx : Nat) (acc : Str) : Option Str :=
  match side_by_side[line_idx]? with
  | none => some acc
  | some diff_line =>
    let line_content := match sel.panel with
      | DiffPanelFocus.Old => diff_line.old_line.map Prod.snd
      | DiffPanelFocus.New => diff_line.new_line.map Prod.snd
      | DiffPanelFocus.None => none
    match line_content with
    | none => some acc
    | some text =>
      match sel.mode with
      | SelectionMode.Line =>
        some ((if acc ≠ [] then acc ++ ['\n'] else acc) ++ text)
      | SelectionMode.Character =>
        let acc := if acc ≠ [] then acc ++ ['\n'] else acc
        if start.line = stop.line then
          let start_col := min start.column (byteLen text)
          let end_col := min stop.column (byteLen text)
          if start_col < end_col then
            (sliceBytes text start_col end_col).map (fun sl => acc ++ sl)
          else some acc
        else if line_idx = start.line then
          let start_col := min start.column (byteLen text)
          (sliceBytes text start_col (byteLen text)).map (fun sl => acc ++ sl)
        else if line_idx = stop.line then
          let end_col := min stop.column (byteLen text)
          (sliceBytes text 0 end_col).map (fun sl => acc ++ sl)
        else
          some (acc ++ text)
      | SelectionMode.None => some acc

/-- The `for line_idx in start.line..=end.line` loop of
`extract_selected_text`, with early `break` past the row list. -/
def extractLoop (sel : Selection) (start stop : CursorPosition)
    (side_by_side : List DiffLine) : List Nat → Str → Option Str
  | [], acc => some acc
  | i :: rest, acc =>
    if i ≥ side_by_side.length then some acc
    else
      match extractLine sel start stop side_by_side i acc with
      | none => none
      | some acc' => extractLoop sel start stop side_by_side rest acc'

/-- `extract_selected_text` (`coordinates.rs`): the outer `none` models
a Rust panic; `some r` is the function's normal `Option<String>`
result. -/
def extract_selected_text (sel : Selection) (side_by_side : List DiffLine) :
    Option (Option Str) :=
  if ¬ sel.is_active then some none
  else
    let (start, stop) := sel.normalized_range
    match extractLoop sel start stop side_by_side
        (List.range' start.line (stop.line + 1 - start.line)) [] with
    | none => none
    | some result => some (if result = [] then none else some result)

/-! ## `render/modal.rs`: annotation-export path validation -/

/-- Whether a string contains two consecutive dots (Rust
`filename.contains("..")`). -/
def hasDotDot : Str → Bool
  | '.' :: '.' :: _ => true
  | _ :: rest => hasDotDot rest
  | [] => false

/-- The `KeyCode::Enter` validation of the annotation-export input
(`render/modal.rs`): trim, reject empty, reject any `".."` occurrence,
otherwise return the trimmed path as the export result. -/
def validateExportPath (input : Str) : Option Str :=
  let filename := trimStr input
  if filename = [] then none
  else if hasDotDot filename then none
  else some filename

/-! ## `state.rs`: annotations and reload remapping -/

/-- `FileStatus` (`types.rs`). -/
inductive FileStatus where
  | Added
  | Modified
  | Deleted
  deriving DecidableEq, Repr

/-- `FileDiff` (`types.rs`). -/
structure FileDiff where
  filename : Str
  old_content : Str
  new_content : Str
  status : FileStatus
  is_binary : Bool
  deriving DecidableEq, Repr

/-- `HunkAnnotation` (`state.rs`); `created_at` modelled as a number. -/
structure HunkAnnotation where
  file_index : Nat
  hunk_index : Nat
  content : Str
  line_range : Nat × Nat
  filename : Str
  created_at : Nat
  deriving DecidableEq, Repr

/-- Hunk count of a file: length of the hunk-start list of its
side-by-side diff (as recomputed in `AppState::reload`). -/
def hunkCount (f : FileDiff) (tab_width : Nat) : Nat :=
  (find_hunk_starts (compute_side_by_side f.old_content f.new_content tab_width)).length

/-- The `file_info` map of `AppState::reload`: filename →
(new index, hunk count). Built by collecting an enumerated iterator
into a `HashMap`, so for a duplicated filename the last occurrence
wins. -/
def lookupFileInfo (files : List FileDiff) (tab_width : Nat) (name : Str) :
    Option (Nat × Nat) :=
  ((files.enum.filter (fun p => p.2.filename = name)).getLast?).map
    (fun p => (p.1, hunkCount p.2 tab_width))

/-- The `annotations.retain_mut` step of `AppState::reload`: re-key each
annotation by its stored filename, drop it when the file is gone or its
hunk index is out of range. -/
def reloadAnnotations (anns : List HunkAnnotation) (files : List FileDiff)
    (tab_width : Nat) : List HunkAnnotation :=
  anns.filterMap (fun ann =>
    match lookupFileInfo files tab_width ann.filename with
    | some (new_file_index, hunk_count) =>
      if ann.hunk_index < hunk_count then
        some { ann with file_index := new_file_index }
      else none
    | none => none)

/-! ## `state.rs`: the diff cache -/

/-- The slice of `AppState` (`state.rs`) relevant to the single-slot
diff cache. -/
structure AppState where
  file_diffs : List FileDiff
  current_file : Nat
  tab_width : Nat
  cached_side_by_side : Option (Nat × List DiffLine)
  cached_hunks : Option (Nat × List Nat)
  deriving DecidableEq, Repr

/-- `AppState::get_side_by_side` (`state.rs`) in state-passing form:
returns the diff rows and the updated state; `none` models the panic of
`self.file_diffs[current]` when `current_file` is out of range. -/
def get_side_by_side (s : AppState) : Option (List DiffLine × AppState) :=
  if s.file_diffs.isEmpty then some ([], s)
  else
    let needs_recompute : Bool := match s.cached_side_by_side with
      | some (cached_file, _) => cached_file != s.current_file
      | none => true
    if needs_recompute then
      match s.file_diffs[s.current_file]? with
      | none => none
      | some diff =>
        let side_by_side := compute_side_by_side diff.old_content diff.new_content s.tab_width
        let hunks := find_hunk_starts side_by_side
        let s' := { s with
          cached_side_by_side := some (s.current_file, side_by_side),
          cached_hunks := some (s.current_file, hunks) }
        some (side_by_side, s')
    else
      match s.cached_side_by_side with
      | some (_, cached) => some (cached, s)
      | none => none

/-! ## Claim-side definitions (stated from the spec's words, for
comparison with the source embeddings) -/

/-- Claim side: a parent-directory traversal segment is a path component
(split on `/`) equal to `".."`. -/
def hasParentTraversalSegment (s : Str) : Bool :=
  (s.splitOn '/').contains ['.', '.']

/-- Claim side: merge adjacent segments with the same emphasis flag, to
compare segment lists up to fragment granularity. -/
def coalesceSegs : List InlineSegment → List InlineSegment
  | [] => []
  | s :: ss =>
    match coalesceSegs ss with
    | [] => [s]
    | t :: ts =>
      if s.emphasized = t.emphasized then ⟨s.text ++ t.text, s.emphasized⟩ :: ts
      else s :: t :: ts

/-- Concatenation of the texts of a segment list. -/
def segConcat (segs : List InlineSegment) : Str :=
  (segs.map InlineSegment.text).flatten

/-- Old-side line numbers of the rows whose old side is present. -/
def oldNums (rows : List DiffLine) : List Nat :=
  rows.filterMap (fun r => r.old_line.map Prod.fst)

/-- New-side line numbers of the rows whose new side is present. -/
def newNums (rows : List DiffLine) : List Nat :=
  rows.filterMap (fun r => r.new_line.map Prod.fst)

/-! # Theorems -/

/-! ## C9: tab expansion -/

/-- **C9**: `expand_tabs` converts each tab to spaces up to the next
multiple-of-`tab_width` column stop using a stateful column counter
(concretely `expand_tabs("a\tb", 4) = "a   b"`), and with
`tab_width = 0` it removes all tabs and leaves every other character
unchanged. The loop invariant conjunct: a tab at column `col` becomes
`w - col % w` spaces and the column advances to `col + (w - col % w)`,
which is a multiple of `w`, strictly greater than `col`, and at most
`col + w` — the next tab stop. -/
theorem expand_tabs_spec :
    expand_tabs "a\tb".data 4 = "a   b".data ∧
    (∀ s : Str, expand_tabs s 0 = s.filter (fun c => c ≠ '\t')) ∧
    (∀ (w col : Nat) (cs : Str), 0 < w →
      expandTabsGo w col ('\t' :: cs) =
        List.replicate (w - col % w) ' ' ++ expandTabsGo w (col + (w - col % w)) cs ∧
      (col + (w - col % w)) % w = 0 ∧
      col < col + (w - col % w) ∧
      col + (w - col % w) ≤ col + w) := by
  refine ⟨by decide, fun s => by simp [expand_tabs], fun w col cs hw => ?_⟩
  have hmod := Nat.div_add_mod col w
  have hlt : col % w < w := Nat.mod_lt _ hw
  refine ⟨by simp [expandTabsGo], ?_, by omega, by omega⟩
  have hcol : col + (w - col % w) = w * (col / w + 1) := by
    rw [Nat.mul_succ]
    omega
  rw [hcol]
  exact Nat.mul_mod_right _ _

/-- Witness for C9 at `w = 4`, `col = 5`: the tab becomes 3 spaces and
the column advances to the stop 8. -/
theorem expand_tabs_spec_witness :
    expandTabsGo 4 5 ('\t' :: ['x']) =
      List.replicate (4 - 5 % 4) ' ' ++ expandTabsGo 4 (5 + (4 - 5 % 4)) ['x'] ∧
    (5 + (4 - 5 % 4)) % 4 = 0 ∧ 5 < 5 + (4 - 5 % 4) ∧ 5 + (4 - 5 % 4) ≤ 5 + 4 :=
  expand_tabs_spec.2.2 4 5 ['x'] (by decide)

/-! ## C6: hunk starts -/

theorem fhsGo_cons (i : Nat) (b : Bool) (l : DiffLine) (ls : List DiffLine) :
    fhsGo i b (l :: ls) =
      (if isChangeRow l ∧ ¬b then [i] else []) ++ fhsGo (i + 1) (isChangeRow l) ls := by
  by_cases hc : isChangeRow l <;> by_cases hb : b <;> simp [fhsGo, hc, hb]

theorem mem_ite_singleton {c : Prop} [Decidable c] (j i : Nat) :
    j ∈ (if c then [i] else []) ↔ c ∧ j = i := by
  split <;> simp_all

theorem mem_fhsGo (ls : List DiffLine) : ∀ (i : Nat) (b : Bool) (j : Nat),
    j ∈ fhsGo i b ls ↔
      ∃ k l, ls[k]? = some l ∧ isChangeRow l ∧ j = i + k ∧
        (if k = 0 then b = false
         else ∃ l', ls[k - 1]? = some l' ∧ ¬ isChangeRow l') := by
  induction ls with
  | nil => simp [fhsGo]
  | cons l ls ih =>
    intro i b j
    rw [fhsGo_cons]
    simp only [List.mem_append, ih, mem_ite_singleton]
    constructor
    · rintro (⟨⟨hc, hb⟩, rfl⟩ | ⟨k, r, hget, hch, hj, hprev⟩)
      · exact ⟨0, l, by simp, hc, by omega, by simpa using hb⟩
      · refine ⟨k + 1, r, by simpa using hget, hch, by omega, ?_⟩
        simp only [Nat.add_one_ne_zero, if_false, Nat.add_sub_cancel]
        rcases Nat.eq_zero_or_pos k with rfl | hk
        · rw [if_pos rfl] at hprev
          exact ⟨l, by simp, by simp [hprev]⟩
        · rw [if_neg (by omega)] at hprev
          obtain ⟨l', hl', hnc⟩ := hprev
          refine ⟨l', ?_, hnc⟩
          obtain ⟨k', rfl⟩ : ∃ k', k = k' + 1 := ⟨k - 1, by omega⟩
          simpa using hl'
    · rintro ⟨k, r, hget, hch, hj, hprev⟩
      rcases k with _ | k
      · rw [if_pos rfl] at hprev
        simp only [List.getElem?_cons_zero, Option.some.injEq] at hget
        exact Or.inl ⟨⟨hget ▸ hch, by simp [hprev]⟩, by omega⟩
      · rw [if_neg (by omega)] at hprev
        simp only [Nat.add_sub_cancel] at hprev
        refine Or.inr ⟨k, r, by simpa using hget, hch, by omega, ?_⟩
        rcases k with _ | k'
        · obtain ⟨l', hl', hnc⟩ := hprev
          simp only [List.getElem?_cons_zero, Option.some.injEq] at hl'
          simp [hl' ▸ hnc]
        · obtain ⟨l', hl', hnc⟩ := hprev
          rw [if_neg (by omega)]
          exact ⟨l', by simpa using hl', hnc⟩

theorem fhsGo_ge (ls : List DiffLine) (i : Nat) (b : Bool) (j : Nat)
    (h : j ∈ fhsGo i b ls) : i ≤ j := by
  obtain ⟨k, l, -, -, rfl, -⟩ := (mem_fhsGo ls i b j).mp h
  omega

theorem fhsGo_pairwise (ls : List DiffLine) : ∀ (i : Nat) (b : Bool),
    (fhsGo i b ls).Pairwise (· < ·) := by
  induction ls with
  | nil => simp [fhsGo]
  | cons l ls ih =>
    intro i b
    rw [fhsGo_cons]
    rcases em (isChangeRow l ∧ ¬b) with hc | hc
    · rw [if_pos hc]
      refine List.Pairwise.cons (fun j hj => ?_) (ih (i + 1) (isChangeRow l))
      have := fhsGo_ge ls (i + 1) (isChangeRow l) j hj
      omega
    · rw [if_neg hc]
      simpa using ih (i + 1) (isChangeRow l)

/-- **C6**: `find_hunk_starts` returns a strictly increasing index list
containing exactly the indices `i` whose row is non-Equal and whose
predecessor (if any) is Equal — the first row of each maximal run of
non-Equal rows; for the row kinds
`[Equal, Equal, Delete, Insert, Equal, Modified, Equal]` it returns
`[2, 5]`. -/
theorem find_hunk_starts_spec :
    (∀ lines : List DiffLine, (find_hunk_starts lines).Pairwise (· < ·)) ∧
    (∀ (lines : List DiffLine) (i : Nat),
      i ∈ find_hunk_starts lines ↔
        (∃ l, lines[i]? = some l ∧ isChangeRow l) ∧
        (i = 0 ∨ ∃ l, lines[i - 1]? = some l ∧ ¬ isChangeRow l)) ∧
    find_hunk_starts
      ([ChangeType.Equal, ChangeType.Equal, ChangeType.Delete, ChangeType.Insert,
        ChangeType.Equal, ChangeType.Modified, ChangeType.Equal].map
        (fun ct => ⟨none, none, ct, none, none⟩)) = [2, 5] := by
  refine ⟨fun lines => fhsGo_pairwise lines 0 false, fun lines i => ?_, by decide⟩
  rw [find_hunk_starts, mem_fhsGo]
  constructor
  · rintro ⟨k, l, hget, hch, rfl, hprev⟩
    simp only [Nat.zero_add]
    refine ⟨⟨l, hget, hch⟩, ?_⟩
    rcases Nat.eq_zero_or_pos k with rfl | hk
    · exact Or.inl rfl
    · rw [if_neg (by omega)] at hprev
      exact Or.inr hprev
  · rintro ⟨⟨l, hget, hch⟩, hprev⟩
    refine ⟨i, l, hget, hch, by omega, ?_⟩
    rcases hprev with rfl | ⟨l', hl', hnc⟩
    · simp
    · rcases Nat.eq_zero_or_pos i with rfl | hi
      · simp
      · rw [if_neg (by omega)]
        exact ⟨l', hl', hnc⟩

/-! ## C7: annotation-export path validation (corrected) -/

/-- Counterexample to **C7** as stated: `"a..b"` is non-empty after
trimming and contains no parent-directory traversal *segment*, yet the
validation rejects it, because the source checks
`filename.contains("..")` — any occurrence of two consecutive dots. -/
theorem validateExportPath_counterexample :
    validateExportPath "a..b".data = none ∧
    trimStr "a..b".data ≠ [] ∧
    hasParentTraversalSegment "a..b".data = false := by
  decide

/-- **C7 (amended)**: the annotation-export path validation rejects a
path exactly when the trimmed string is empty or contains two
consecutive dots `".."` anywhere (a superset of parent-directory
traversal segments), and accepts every other path by returning the
trimmed string as the export result. -/
theorem validateExportPath_spec (s : Str) :
    (validateExportPath s = none ↔ trimStr s = [] ∨ hasDotDot (trimStr s)) ∧
    (trimStr s ≠ [] → ¬ hasDotDot (trimStr s) →
      validateExportPath s = some (trimStr s)) := by
  simp only [validateExportPath]
  constructor
  · split
    · simp_all
    · split <;> simp_all
  · intro h1 h2
    rw [if_neg h1, if_neg (by simpa using h2)]

/-- Witness for C7 (amended) at `" notes.md "`: accepted, returning the
trimmed path. -/
theorem validateExportPath_spec_witness :
    validateExportPath " notes.md ".data = some (trimStr " notes.md ".data) :=
  (validateExportPath_spec " notes.md ".data).2 (by decide) (by decide)

/-! ## C4: selected-text extraction can panic (code bug) -/

/-- **C4** evaluated at the failing input: a Character-mode selection of
byte columns `[0, 1)` on a row whose new-side text is `"é"` (a 2-byte
character) makes `extract_selected_text` slice `&text[0..1]` at a
non-character boundary — a Rust panic, modelled as the outer `none`.
The claim's totality ("never fails, slices only at character
boundaries") does not hold on the code. -/
theorem extract_selected_text_panics :
    extract_selected_text
      ⟨DiffPanelFocus.New, ⟨0, 0⟩, ⟨0, 1⟩, SelectionMode.Character⟩
      [⟨none, some (1, ['é']), ChangeType.Insert, none, none⟩] = none := by
  decide

/-- For contrast: on single-byte (ASCII) text the same selection
extracts the first character normally. -/
theorem extract_selected_text_ascii_ok :
    extract_selected_text
      ⟨DiffPanelFocus.New, ⟨0, 0⟩, ⟨0, 1⟩, SelectionMode.Character⟩
      [⟨none, some (1, ['e']), ChangeType.Insert, none, none⟩] = some (some ['e']) := by
  decide

/-! ## C8: single-slot diff cache -/

/-- **C8**: with a non-empty file list, a second call to
`get_side_by_side` with an unchanged current file index returns exactly
the first call's result and leaves the state (in particular the cache
slot) unchanged — no recomputation. -/
theorem get_side_by_side_cached (s : AppState) (r1 : List DiffLine) (s1 : AppState)
    (hne : s.file_diffs ≠ []) (h : get_side_by_side s = some (r1, s1)) :
    get_side_by_side s1 = some (r1, s1) := by
  have hE : s.file_diffs.isEmpty = false := by simpa using hne
  rw [get_side_by_side, hE] at h
  simp only [Bool.false_eq_true, if_false] at h
  split at h
  · -- needs_recompute: the first call fills the cache slot
    split at h
    · exact absurd h (by simp)
    · rename_i diff hdiff
      obtain ⟨rfl, rfl⟩ : compute_side_by_side diff.old_content diff.new_content s.tab_width = r1 ∧
          ({ s with
            cached_side_by_side := some (s.current_file,
              compute_side_by_side diff.old_content diff.new_content s.tab_width),
            cached_hunks := some (s.current_file,
              find_hunk_starts (compute_side_by_side diff.old_content diff.new_content s.tab_width)) }
            : AppState) = s1 := by
        simpa using h
      rw [get_side_by_side]
      simp [hE]
  · -- cache hit: the state is returned unchanged
    rename_i hneeds
    split at h
    · rename_i cf cached hc
      obtain ⟨rfl, rfl⟩ : cached = r1 ∧ s = s1 := by simpa using h
      rw [get_side_by_side, hE]
      simp only [Bool.false_eq_true, if_false]
      rw [if_neg hneeds]
      simp [hc]
    · exact absurd h (by simp)

/-- Witness for C8: a state whose cache slot holds a row list that a
recompute (over the empty blobs) would not produce; both calls return
the cached rows and the unchanged state, showing the slot is read, not
recomputed. -/
theorem get_side_by_side_cached_witness :
    (([⟨['a'], [], [], FileStatus.Modified, false⟩] : List FileDiff) ≠ []) ∧
    get_side_by_side
        ⟨[⟨['a'], [], [], FileStatus.Modified, false⟩], 0, 4,
          some (0, [⟨none, none, ChangeType.Equal, none, none⟩]), some (0, [])⟩ =
      some ([⟨none, none, ChangeType.Equal, none, none⟩],
        ⟨[⟨['a'], [], [], FileStatus.Modified, false⟩], 0, 4,
          some (0, [⟨none, none, ChangeType.Equal, none, none⟩]), some (0, [])⟩) ∧
    get_side_by_side
        ⟨[⟨['a'], [], [], FileStatus.Modified, false⟩], 0, 4,
          some (0, [⟨none, none, ChangeType.Equal, none, none⟩]), some (0, [])⟩ =
      some ([⟨none, none, ChangeType.Equal, none, none⟩],
        ⟨[⟨['a'], [], [], FileStatus.Modified, false⟩], 0, 4,
          some (0, [⟨none, none, ChangeType.Equal, none, none⟩]), some (0, [])⟩) :=
  have h2 : get_side_by_side
        ⟨[⟨['a'], [], [], FileStatus.Modified, false⟩], 0, 4,
          some (0, [⟨none, none, ChangeType.Equal, none, none⟩]), some (0, [])⟩ =
      some ([⟨none, none, ChangeType.Equal, none, none⟩],
        ⟨[⟨['a'], [], [], FileStatus.Modified, false⟩], 0, 4,
          some (0, [⟨none, none, ChangeType.Equal, none, none⟩]), some (0, [])⟩) := by decide
  ⟨by decide, h2, get_side_by_side_cached _ _ _ (by decide) h2⟩

/-! ## C3: word-diff suppression and emphasis -/

/-- **C3**: `compute_word_diff` returns no result exactly when the
longer trimmed line's length is zero or the meaningful unchanged length
is below 20% of it; `compute_word_diff("abc","xyz")` is suppressed,
while `compute_word_diff("foo bar baz","foo qux baz")` returns segments
whose coalesced forms emphasize exactly `"bar"` / `"qux"` and leave
`"foo "` / `" baz"` unemphasized on both sides. -/
theorem compute_word_diff_spec :
    (∀ a b : Str,
      compute_word_diff a b = none ↔
        max (byteLen (trimStr a)) (byteLen (trimStr b)) = 0 ∨
        5 * unchangedLen (lcsDiff (tokWords a) (tokWords b)) <
          max (byteLen (trimStr a)) (byteLen (trimStr b))) ∧
    compute_word_diff "abc".data "xyz".data = none ∧
    (compute_word_diff "foo bar baz".data "foo qux baz".data =
      some ([⟨"foo".data, false⟩, ⟨" ".data, false⟩, ⟨"bar".data, true⟩,
             ⟨" ".data, false⟩, ⟨"baz".data, false⟩],
            [⟨"foo".data, false⟩, ⟨" ".data, false⟩, ⟨"qux".data, true⟩,
             ⟨" ".data, false⟩, ⟨"baz".data, false⟩]) ∧
     coalesceSegs [⟨"foo".data, false⟩, ⟨" ".data, false⟩, ⟨"bar".data, true⟩,
             ⟨" ".data, false⟩, ⟨"baz".data, false⟩] =
       [⟨"foo ".data, false⟩, ⟨"bar".data, true⟩, ⟨" baz".data, false⟩] ∧
     coalesceSegs [⟨"foo".data, false⟩, ⟨" ".data, false⟩, ⟨"qux".data, true⟩,
             ⟨" ".data, false⟩, ⟨"baz".data, false⟩] =
       [⟨"foo ".data, false⟩, ⟨"qux".data, true⟩, ⟨" baz".data, false⟩]) := by
  refine ⟨fun a b => ?_, ?_, ?_, by decide, by decide⟩
  · simp only [compute_word_diff]
    split
    · simp_all
    · simp_all
  · simp [compute_word_diff, lcsDiff, lcsLen, tokWords, charClass, unchangedLen,
      byteLen, trimStr, trimEnd]
  · simp [compute_word_diff, lcsDiff, lcsLen, tokWords, charClass, unchangedLen,
      byteLen, trimStr, trimEnd, wordSegsOld, wordSegsNew, has_meaningful_content,
      Char.utf8Size]

/-! ## C5: annotation remapping on reload -/

/-- Claim side: re-key an annotation by its stored filename — new
`file_index` is the index of the (first) file with that filename, kept
only when its hunk index is below the recomputed hunk count. -/
def annRemapSpec (files : List FileDiff) (tab_width : Nat) (ann : HunkAnnotation) :
    Option HunkAnnotation :=
  (files.findIdx? (fun f => f.filename = ann.filename)).bind (fun i =>
    (files[i]?).bind (fun f =>
      if ann.hunk_index < hunkCount f tab_width then some { ann with file_index := i }
      else none))

theorem findIdx?_ge (p : FileDiff → Bool) : ∀ (xs : List FileDiff) (j i : Nat),
    List.findIdx? p xs j = some i → j ≤ i := by
  intro xs
  induction xs with
  | nil => intro j i h; simp [List.findIdx?_nil] at h
  | cons x xs ih =>
    intro j i h
    rw [List.findIdx?_cons] at h
    split at h
    · simp only [Option.some.injEq] at h
      omega
    · have := ih (j + 1) i h
      omega

theorem filter_enumFrom_nil (name : Str) : ∀ (fs : List FileDiff) (m : Nat),
    (∀ f ∈ fs, f.filename ≠ name) →
    (List.enumFrom m fs).filter (fun p => p.2.filename = name) = [] := by
  intro fs
  induction fs with
  | nil => simp
  | cons f fs ih =>
    intro m h
    rw [List.enumFrom_cons, List.filter_cons]
    rw [if_neg (by simpa using h f (by simp))]
    exact ih (m + 1) (fun g hg => h g (by simp [hg]))

theorem lookup_enumFrom (name : Str) : ∀ (files : List FileDiff) (k : Nat),
    ((files.map FileDiff.filename).Nodup) →
    ((List.enumFrom k files).filter (fun p => p.2.filename = name)).getLast? =
      (List.findIdx? (fun f => f.filename = name) files k).bind
        (fun i => (files[i - k]?).map (fun f => (i, f))) := by
  intro files
  induction files with
  | nil => simp
  | cons f fs ih =>
    intro k hnd
    rw [List.enumFrom_cons, List.filter_cons, List.findIdx?_cons]
    by_cases hf : f.filename = name
    · rw [if_pos (by simpa using hf), if_pos (by simpa using hf)]
      have hpair : (∀ x ∈ fs, ¬ x.filename = f.filename) ∧
          (fs.map FileDiff.filename).Nodup := by simpa using hnd
      have hrest : (List.enumFrom (k + 1) fs).filter (fun p => p.2.filename = name) = [] := by
        refine filter_enumFrom_nil name fs (k + 1) (fun g hg hgname => ?_)
        exact hpair.1 g hg (by rw [hgname, hf])
      rw [hrest]
      simp
    · rw [if_neg (by simpa using hf), if_neg (by simpa using hf)]
      have hpair : (∀ x ∈ fs, ¬ x.filename = f.filename) ∧
          (fs.map FileDiff.filename).Nodup := by simpa using hnd
      rw [ih (k + 1) hpair.2]
      cases hidx : List.findIdx? (fun f => f.filename = name) fs (k + 1) with
      | none => rfl
      | some i =>
        have hge := findIdx?_ge _ fs (k + 1) i hidx
        simp only [Option.some_bind]
        obtain ⟨d, rfl⟩ : ∃ d, i = k + 1 + d := ⟨i - (k + 1), by omega⟩
        have h1 : k + 1 + d - (k + 1) = d := by omega
        have h2 : k + 1 + d - k = d + 1 := by omega
        rw [h1, h2, List.getElem?_cons_succ]

theorem lookupFileInfo_nodup (files : List FileDiff) (tab_width : Nat) (name : Str)
    (h : (files.map FileDiff.filename).Nodup) :
    lookupFileInfo files tab_width name =
      (List.findIdx? (fun f => f.filename = name) files).bind
        (fun i => (files[i]?).map (fun f => (i, hunkCount f tab_width))) := by
  rw [lookupFileInfo]
  have : files.enum = List.enumFrom 0 files := rfl
  rw [this, lookup_enumFrom name files 0 h]
  cases List.findIdx? (fun f => f.filename = name) files with
  | none => simp
  | some i =>
    simp only [Option.some_bind, Nat.sub_zero, Option.map_map]
    cases files[i]? with
    | none => rfl
    | some f => rfl

/-- **C5**: with distinct filenames in the new file list, reload re-keys
each surviving annotation by its stored filename — `file_index` becomes
the index of the file with that filename, and an annotation is dropped
exactly when no such file exists or its `hunk_index` is at least the
recomputed hunk count. Concretely, an annotation at
`(file_index = 2, hunk_index = 1, "a.rs")` is retained with
`file_index = 0` when `"a.rs"` moves to index 0 with two hunks, and is
dropped when `"a.rs"` is removed. -/
theorem reload_annotations_spec :
    (∀ (anns : List HunkAnnotation) (files : List FileDiff) (tab_width : Nat),
      (files.map FileDiff.filename).Nodup →
      reloadAnnotations anns files tab_width = anns.filterMap (annRemapSpec files tab_width)) ∧
    reloadAnnotations [⟨2, 1, [], (0, 0), "a.rs".data, 0⟩]
      [⟨"a.rs".data, "a\nX\nb\nY\n".data, "a\nZ\nb\nW\n".data, FileStatus.Modified, false⟩,
       ⟨"b.rs".data, [], [], FileStatus.Added, false⟩] 4 =
      [⟨0, 1, [], (0, 0), "a.rs".data, 0⟩] ∧
    reloadAnnotations [⟨2, 1, [], (0, 0), "a.rs".data, 0⟩]
      [⟨"b.rs".data, [], [], FileStatus.Added, false⟩] 4 = [] := by
  refine ⟨fun anns files tab_width hnd => ?_, ?_, ?_⟩
  · have hpt : ∀ ann : HunkAnnotation,
        (match lookupFileInfo files tab_width ann.filename with
          | some (new_file_index, hunk_count) =>
            if ann.hunk_index < hunk_count then some { ann with file_index := new_file_index }
            else none
          | none => none) = annRemapSpec files tab_width ann := by
      intro ann
      rw [lookupFileInfo_nodup files tab_width ann.filename hnd, annRemapSpec]
      cases List.findIdx? (fun f => f.filename = ann.filename) files with
      | none => rfl
      | some i =>
        simp only [Option.some_bind]
        cases files[i]? with
        | none => rfl
        | some f => rfl
    rw [reloadAnnotations]
    induction anns with
    | nil => rfl
    | cons a as ih => rw [List.filterMap_cons, List.filterMap_cons, hpt a, ih]
  · simp [reloadAnnotations, lookupFileInfo, hunkCount, find_hunk_starts, fhsGo, isChangeRow,
      compute_side_by_side, splitLinesKeep, lcsDiff, lcsLen, sbsWalk, hasTag, pairRows,
      mkPairRow, compute_word_diff, tokWords, charClass, unchangedLen, byteLen, trimStr,
      trimEnd, procText, expand_tabs, expandTabsGo, withNums, wordSegsOld, wordSegsNew,
      has_meaningful_content, Char.utf8Size, List.enum, List.enumFrom]
  · simp [reloadAnnotations, lookupFileInfo, hunkCount, find_hunk_starts, fhsGo, isChangeRow,
      compute_side_by_side, splitLinesKeep, lcsDiff, lcsLen, sbsWalk, hasTag, pairRows,
      mkPairRow, compute_word_diff, tokWords, charClass, unchangedLen, byteLen, trimStr,
      trimEnd, procText, expand_tabs, expandTabsGo, withNums, wordSegsOld, wordSegsNew,
      has_meaningful_content, Char.utf8Size, List.enum, List.enumFrom]

/-- Witness for C5's re-keying law at a concrete file list with
distinct filenames. -/
theorem reload_annotations_spec_witness :
    reloadAnnotations [⟨2, 1, [], (0, 0), "a.rs".data, 0⟩]
      [⟨"a.rs".data, "a\nX\nb\nY\n".data, "a\nZ\nb\nW\n".data, FileStatus.Modified, false⟩,
       ⟨"b.rs".data, [], [], FileStatus.Added, false⟩] 4 =
      [(⟨2, 1, [], (0, 0), "a.rs".data, 0⟩ : HunkAnnotation)].filterMap
        (annRemapSpec
          [⟨"a.rs".data, "a\nX\nb\nY\n".data, "a\nZ\nb\nW\n".data, FileStatus.Modified, false⟩,
           ⟨"b.rs".data, [], [], FileStatus.Added, false⟩] 4) :=
  reload_annotations_spec.1 _ _ 4 (by decide)



theorem takeWhile_append_all {α : Type} (p : α → Bool) :
    ∀ (xs ys : List α), (∀ x ∈ xs, p x) →
    (xs ++ ys).takeWhile p = xs ++ ys.takeWhile p := by
  intro xs ys
  induction xs with
  | nil => simp
  | cons x xs ih =>
    intro h
    rw [List.cons_append, List.takeWhile_cons_of_pos (h x (by simp)),
      ih (fun a ha => h a (by simp [ha])), List.cons_append]

theorem dropWhile_append_all {α : Type} (p : α → Bool) :
    ∀ (xs ys : List α), (∀ x ∈ xs, p x) →
    (xs ++ ys).dropWhile p = ys.dropWhile p := by
  intro xs ys
  induction xs with
  | nil => simp
  | cons x xs ih =>
    intro h
    rw [List.cons_append, List.dropWhile_cons_of_pos (h x (by simp))]
    exact ih (fun a ha => h a (by simp [ha]))

theorem takeWhile_head_neg {α : Type} (p : α → Bool) (ys : List α)
    (h : ∀ c, ys.head? = some c → ¬ p c) : ys.takeWhile p = [] := by
  cases ys with
  | nil => rfl
  | cons y ys => rw [List.takeWhile_cons_of_neg (by simpa using h y rfl)]

theorem dropWhile_head_neg {α : Type} (p : α → Bool) (ys : List α)
    (h : ∀ c, ys.head? = some c → ¬ p c) : ys.dropWhile p = ys := by
  cases ys with
  | nil => rfl
  | cons y ys => rw [List.dropWhile_cons_of_neg (by simpa using h y rfl)]

theorem mkPairRow_old_line (d i : Option (Nat × Str)) : (mkPairRow d i).old_line = d := by
  cases d <;> cases i <;> simp only [mkPairRow] <;> try rfl
  split <;> rfl

theorem mkPairRow_new_line (d i : Option (Nat × Str)) : (mkPairRow d i).new_line = i := by
  cases d <;> cases i <;> simp only [mkPairRow] <;> try rfl
  split <;> rfl



theorem sbsWalk_run (tab_width o n : Nat) (dels ins rest : List Change)
    (hd : dels ≠ [])
    (hdall : ∀ c ∈ dels, c.tag = Tag.delete)
    (hiall : ∀ c ∈ ins, c.tag = Tag.insert)
    (hrest : ∀ c, rest.head? = some c →
      c.tag ≠ Tag.insert ∧ (ins = [] → c.tag ≠ Tag.delete)) :
    sbsWalk tab_width o n (dels ++ ins ++ rest) =
      pairRows (withNums o (dels.map (fun c => procText tab_width c.value)))
               (withNums n (ins.map (fun c => procText tab_width c.value))) ++
        sbsWalk tab_width (o + dels.length) (n + ins.length) rest := by
  obtain ⟨d, dels', rfl⟩ : ∃ d dels', dels = d :: dels' := by
    cases dels with
    | nil => exact absurd rfl hd
    | cons d ds => exact ⟨d, ds, rfl⟩
  obtain ⟨v, rfl⟩ : ∃ v, d = ⟨Tag.delete, v⟩ := by
    have := hdall d (by simp)
    exact ⟨d.value, by cases d; simp_all⟩
  have hins_rest_nodel : ∀ c, (ins ++ rest).head? = some c → ¬ hasTag Tag.delete c := by
    intro c hc
    cases ins with
    | nil =>
      simp only [List.nil_append] at hc
      simpa [hasTag] using (hrest c hc).2 rfl
    | cons i is =>
      simp only [List.cons_append, List.head?_cons, Option.some.injEq] at hc
      have := hiall i (by simp)
      simp [hasTag, ← hc, this]
  have htake : (⟨Tag.delete, v⟩ :: (dels' ++ (ins ++ rest)) : List Change).takeWhile
      (hasTag Tag.delete) = (⟨Tag.delete, v⟩ :: dels') := by
    rw [← List.cons_append,
      takeWhile_append_all _ _ _ (fun c hc => by simp [hasTag, hdall c hc]),
      takeWhile_head_neg _ _ hins_rest_nodel, List.append_nil]
  have hdrop : (⟨Tag.delete, v⟩ :: (dels' ++ (ins ++ rest)) : List Change).dropWhile
      (hasTag Tag.delete) = ins ++ rest := by
    rw [← List.cons_append,
      dropWhile_append_all _ _ _ (fun c hc => by simp [hasTag, hdall c hc]),
      dropWhile_head_neg _ _ hins_rest_nodel]
  have htake2 : (ins ++ rest).takeWhile (hasTag Tag.insert) = ins := by
    rw [takeWhile_append_all _ _ _ (fun c hc => by simp [hasTag, hiall c hc]),
      takeWhile_head_neg _ _ (fun c hc => by simp [hasTag, (hrest c hc).1]), List.append_nil]
  have hdrop2 : (ins ++ rest).dropWhile (hasTag Tag.insert) = rest := by
    rw [dropWhile_append_all _ _ _ (fun c hc => by simp [hasTag, hiall c hc]),
      dropWhile_head_neg _ _ (fun c hc => by simp [hasTag, (hrest c hc).1])]
  rw [List.append_assoc, List.cons_append]
  simp only [sbsWalk]
  rw [htake, hdrop, htake2, hdrop2]

theorem pairRows_getElem? : ∀ (ds is : List (Nat × Str)) (j : Nat),
    j < max ds.length is.length →
    (pairRows ds is)[j]? = some (mkPairRow ds[j]? is[j]?) := by
  intro ds
  induction ds with
  | nil =>
    intro is
    induction is with
    | nil => intro j h; simp at h
    | cons i is ih =>
      intro j h
      cases j with
      | zero => simp [pairRows]
      | succ j =>
        rw [pairRows]
        simpa using ih j (by simp at h ⊢; omega)
  | cons d ds ihd =>
    intro is j h
    cases is with
    | nil =>
      cases j with
      | zero => simp [pairRows]
      | succ j =>
        rw [pairRows]
        simpa using ihd [] j (by simp at h ⊢; omega)
    | cons i is =>
      cases j with
      | zero => simp [pairRows]
      | succ j =>
        rw [pairRows]
        simpa using ihd is j (by simp at h ⊢; omega)




theorem withNums_map_fst : ∀ (l : List Str) (k : Nat),
    (withNums k l).map Prod.fst = List.range' k l.length := by
  intro l
  induction l with
  | nil => simp [withNums]
  | cons t ts ih =>
    intro k
    rw [withNums, List.map_cons, ih (k + 1), List.length_cons, List.range'_succ]

theorem oldNums_append (a b : List DiffLine) :
    oldNums (a ++ b) = oldNums a ++ oldNums b := by
  simp [oldNums, List.filterMap_append]

theorem newNums_append (a b : List DiffLine) :
    newNums (a ++ b) = newNums a ++ newNums b := by
  simp [newNums, List.filterMap_append]

theorem oldNums_pairRows : ∀ (ds is : List (Nat × Str)),
    oldNums (pairRows ds is) = ds.map Prod.fst := by
  intro ds
  induction ds with
  | nil =>
    intro is
    induction is with
    | nil => simp [pairRows, oldNums]
    | cons i is ih =>
      rw [pairRows]
      simp only [oldNums, List.filterMap_cons] at ih ⊢
      rw [mkPairRow_old_line]
      simpa using ih
  | cons d ds ihd =>
    intro is
    cases is with
    | nil =>
      rw [pairRows]
      simp only [oldNums, List.filterMap_cons] at ihd ⊢
      rw [mkPairRow_old_line]
      simpa using ihd []
    | cons i is =>
      rw [pairRows]
      simp only [oldNums, List.filterMap_cons] at ihd ⊢
      rw [mkPairRow_old_line]
      simpa using ihd is

theorem newNums_pairRows : ∀ (ds is : List (Nat × Str)),
    newNums (pairRows ds is) = is.map Prod.fst := by
  intro ds
  induction ds with
  | nil =>
    intro is
    induction is with
    | nil => simp [pairRows, newNums]
    | cons i is ih =>
      rw [pairRows]
      simp only [newNums, List.filterMap_cons] at ih ⊢
      rw [mkPairRow_new_line]
      simpa using ih
  | cons d ds ihd =>
    intro is
    cases is with
    | nil =>
      rw [pairRows]
      simp only [newNums, List.filterMap_cons] at ihd ⊢
      rw [mkPairRow_new_line]
      simpa using ihd []
    | cons i is =>
      rw [pairRows]
      simp only [newNums, List.filterMap_cons] at ihd ⊢
      rw [mkPairRow_new_line]
      simpa using ihd is

theorem sbsWalk_oldNums (tab_width : Nat) : ∀ (o n : Nat) (cs : List Change),
    ∃ k, oldNums (sbsWalk tab_width o n cs) = List.range' o k := by
  intro o n cs
  induction o, n, cs using sbsWalk.induct tab_width with
  | case1 o n => exact ⟨0, by simp [sbsWalk, oldNums]⟩
  | case2 o n v cs ih =>
    obtain ⟨k, hk⟩ := ih
    refine ⟨k + 1, ?_⟩
    rw [sbsWalk]
    simp only [oldNums, List.filterMap_cons] at hk ⊢
    rw [List.range'_succ]
    simpa using hk
  | case3 o n v cs ih =>
    obtain ⟨k, hk⟩ := ih
    refine ⟨k, ?_⟩
    rw [sbsWalk]
    simp only [oldNums, List.filterMap_cons] at hk ⊢
    simpa using hk
  | case4 o n v cs dels rest1 ins rest2 ih =>
    obtain ⟨k, hk⟩ := ih
    refine ⟨dels.length + k, ?_⟩
    rw [sbsWalk, oldNums_append, oldNums_pairRows, withNums_map_fst, hk]
    rw [List.length_map]
    have h := List.range'_append o dels.length k 1
    rw [Nat.one_mul] at h
    rw [Nat.add_comm dels.length k]
    exact h



theorem sbsWalk_newNums (tab_width : Nat) : ∀ (o n : Nat) (cs : List Change),
    ∃ k, newNums (sbsWalk tab_width o n cs) = List.range' n k := by
  intro o n cs
  induction o, n, cs using sbsWalk.induct tab_width with
  | case1 o n => exact ⟨0, by simp [sbsWalk, newNums]⟩
  | case2 o n v cs ih =>
    obtain ⟨k, hk⟩ := ih
    refine ⟨k + 1, ?_⟩
    rw [sbsWalk]
    simp only [newNums, List.filterMap_cons] at hk ⊢
    rw [List.range'_succ]
    simpa using hk
  | case3 o n v cs ih =>
    obtain ⟨k, hk⟩ := ih
    refine ⟨k + 1, ?_⟩
    rw [sbsWalk]
    simp only [newNums, List.filterMap_cons] at hk ⊢
    rw [List.range'_succ]
    simpa using hk
  | case4 o n v cs dels rest1 ins rest2 ih =>
    obtain ⟨k, hk⟩ := ih
    refine ⟨ins.length + k, ?_⟩
    rw [sbsWalk, newNums_append, newNums_pairRows, withNums_map_fst, hk]
    rw [List.length_map]
    have h := List.range'_append n ins.length k 1
    rw [Nat.one_mul] at h
    rw [Nat.add_comm ins.length k]
    exact h

/-- **C10**: in the output of `compute_side_by_side` the old-side line
numbers of rows whose old side is present are exactly the consecutive
integers 1, 2, 3, … in row order, and likewise the new-side numbers:
each side's counter advances independently and no number is skipped or
repeated. -/
theorem compute_side_by_side_line_numbers (old new : Str) (tab_width : Nat) :
    oldNums (compute_side_by_side old new tab_width) =
      List.range' 1 (oldNums (compute_side_by_side old new tab_width)).length ∧
    newNums (compute_side_by_side old new tab_width) =
      List.range' 1 (newNums (compute_side_by_side old new tab_width)).length := by
  constructor
  · obtain ⟨k, hk⟩ := sbsWalk_oldNums tab_width 1 1
      (lcsDiff (splitLinesKeep old) (splitLinesKeep new))
    rw [compute_side_by_side, hk, List.length_range']
  · obtain ⟨k, hk⟩ := sbsWalk_newNums tab_width 1 1
      (lcsDiff (splitLinesKeep old) (splitLinesKeep new))
    rw [compute_side_by_side, hk, List.length_range']



theorem tokWords_flatten : ∀ s : Str, (tokWords s).flatten = s := by
  intro s
  induction s with
  | nil => simp [tokWords]
  | cons c cs ih =>
    cases h : tokWords cs with
    | nil =>
      rw [h] at ih
      simp only [List.flatten_nil] at ih
      simp [tokWords, h, ← ih]
    | cons t ts =>
      rw [h] at ih
      cases t with
      | nil =>
        simp only [tokWords, h]
        simpa using ih
      | cons d t' =>
        by_cases hcl : charClass c = charClass d
        · simp only [tokWords, h, if_pos hcl]
          simpa using ih
        · simp only [tokWords, h, if_neg hcl]
          simpa using ih

theorem projOld_lcsDiff (xs ys : List Str) : projOld (lcsDiff xs ys) = xs := by
  induction xs, ys using lcsDiff.induct with
  | case1 ys => simp [lcsDiff, projOld]
  | case2 x xs ih => simpa [lcsDiff, projOld] using ih
  | case3 xs y ys ih => simpa [lcsDiff, projOld] using ih
  | case4 x xs y ys h h2 ih => simpa [lcsDiff, h, h2, projOld] using ih
  | case5 x xs y ys h h2 ih => simpa [lcsDiff, h, h2, projOld] using ih

theorem projNew_lcsDiff (xs ys : List Str) : projNew (lcsDiff xs ys) = ys := by
  induction xs, ys using lcsDiff.induct with
  | case1 ys =>
    simp only [lcsDiff, projNew, List.filterMap_map]
    induction ys with
    | nil => simp
    | cons y ys ih => simpa using ih
  | case2 x xs ih => simpa [lcsDiff, projNew] using ih
  | case3 xs y ys ih => simpa [lcsDiff, projNew] using ih
  | case4 x xs y ys h h2 ih => simpa [lcsDiff, h, h2, projNew] using ih
  | case5 x xs y ys h h2 ih => simpa [lcsDiff, h, h2, projNew] using ih

theorem segConcat_wordSegsOld : ∀ cs : List Change,
    segConcat (wordSegsOld cs) = (projOld cs).flatten := by
  intro cs
  induction cs with
  | nil => simp [wordSegsOld, projOld, segConcat]
  | cons c cs ih =>
    simp only [wordSegsOld, projOld, segConcat, List.filterMap_cons] at ih ⊢
    cases h : c.tag <;> simpa [h] using ih

theorem segConcat_wordSegsNew : ∀ cs : List Change,
    segConcat (wordSegsNew cs) = (projNew cs).flatten := by
  intro cs
  induction cs with
  | nil => simp [wordSegsNew, projNew, segConcat]
  | cons c cs ih =>
    simp only [wordSegsNew, projNew, segConcat, List.filterMap_cons] at ih ⊢
    cases h : c.tag <;> simpa [h] using ih

theorem compute_word_diff_some (a b : Str) (os ns : List InlineSegment)
    (h : compute_word_diff a b = some (os, ns)) :
    segConcat os = a ∧ segConcat ns = b := by
  rw [compute_word_diff] at h
  split at h
  · exact absurd h (by simp)
  · obtain ⟨rfl, rfl⟩ : wordSegsOld (lcsDiff (tokWords a) (tokWords b)) = os ∧
        wordSegsNew (lcsDiff (tokWords a) (tokWords b)) = ns := by
      constructor <;> simp_all
    rw [segConcat_wordSegsOld, segConcat_wordSegsNew, projOld_lcsDiff, projNew_lcsDiff,
      tokWords_flatten, tokWords_flatten]
    exact ⟨rfl, rfl⟩

theorem mem_pairRows : ∀ (ds is : List (Nat × Str)) (row : DiffLine),
    row ∈ pairRows ds is → ∃ d i, row = mkPairRow d i := by
  intro ds
  induction ds with
  | nil =>
    intro is
    induction is with
    | nil => intro row h; simp [pairRows] at h
    | cons i is ih =>
      intro row h
      rw [pairRows] at h
      rcases List.mem_cons.mp h with rfl | h
      · exact ⟨none, some i, rfl⟩
      · exact ih row h
  | cons d ds ihd =>
    intro is row h
    cases is with
    | nil =>
      rw [pairRows] at h
      rcases List.mem_cons.mp h with rfl | h
      · exact ⟨some d, none, rfl⟩
      · exact ihd [] row h
    | cons i is =>
      rw [pairRows] at h
      rcases List.mem_cons.mp h with rfl | h
      · exact ⟨some d, some i, rfl⟩
      · exact ihd is row h

theorem mkPairRow_segments (d i : Option (Nat × Str)) (os ns : List InlineSegment)
    (ho : (mkPairRow d i).old_segments = some os)
    (hn : (mkPairRow d i).new_segments = some ns) :
    ∃ pd pi, d = some pd ∧ i = some pi ∧ compute_word_diff pd.2 pi.2 = some (os, ns) := by
  cases d with
  | none =>
    cases i with
    | none =>
      rw [mkPairRow] at ho
      revert ho
      split
      · rename_i segs heq
        simp [compute_word_diff, tokWords, lcsDiff, trimStr, trimEnd, byteLen] at heq
      · simp
    | some pi =>
      rw [mkPairRow] at ho
      simp at ho
  | some pd =>
    cases i with
    | none =>
      rw [mkPairRow] at ho
      simp at ho
    | some pi =>
      rw [mkPairRow] at ho hn
      revert ho hn
      split
      · rename_i oseg nseg heq
        intro ho hn
        simp only [Option.some.injEq] at ho hn
        simp only [Option.map_some', Option.getD_some] at heq
        exact ⟨pd, pi, rfl, rfl, by rw [heq, ho, hn]⟩
      · simp



theorem sbsWalk_segments (tab_width : Nat) : ∀ (o n : Nat) (cs : List Change)
    (row : DiffLine) (os ns : List InlineSegment),
    row ∈ sbsWalk tab_width o n cs →
    row.old_segments = some os → row.new_segments = some ns →
    ∃ po pn, row.old_line = some po ∧ row.new_line = some pn ∧
      segConcat os = po.2 ∧ segConcat ns = pn.2 := by
  intro o n cs
  induction o, n, cs using sbsWalk.induct tab_width with
  | case1 o n => intro row os ns h; simp [sbsWalk] at h
  | case2 o n v cs ih =>
    intro row os ns h ho hn
    rw [sbsWalk] at h
    rcases List.mem_cons.mp h with rfl | h
    · simp at ho
    · exact ih row os ns h ho hn
  | case3 o n v cs ih =>
    intro row os ns h ho hn
    rw [sbsWalk] at h
    rcases List.mem_cons.mp h with rfl | h
    · simp at ho
    · exact ih row os ns h ho hn
  | case4 o n v cs dels rest1 ins rest2 ih =>
    intro row os ns h ho hn
    rw [sbsWalk] at h
    rcases List.mem_append.mp h with h | h
    · obtain ⟨d, i, rfl⟩ := mem_pairRows _ _ row h
      obtain ⟨pd, pi, rfl, rfl, hcw⟩ := mkPairRow_segments d i os ns ho hn
      obtain ⟨h1, h2⟩ := compute_word_diff_some _ _ _ _ hcw
      exact ⟨pd, pi, mkPairRow_old_line _ _, mkPairRow_new_line _ _, h1, h2⟩
    · exact ih row os ns h ho hn

/-- **C1**: every row of `compute_side_by_side` that carries segment
lists satisfies the round-trip law — the concatenation of its old-side
`InlineSegment` texts equals the row's stored old line text, and
likewise on the new side. -/
theorem compute_side_by_side_roundtrip (old new : Str) (tab_width : Nat)
    (row : DiffLine) (os ns : List InlineSegment)
    (hrow : row ∈ compute_side_by_side old new tab_width)
    (ho : row.old_segments = some os) (hn : row.new_segments = some ns) :
    ∃ po pn, row.old_line = some po ∧ row.new_line = some pn ∧
      segConcat os = po.2 ∧ segConcat ns = pn.2 :=
  sbsWalk_segments tab_width 1 1 _ row os ns hrow ho hn




theorem mkPairRow_change_type :
    (∀ a b : Nat × Str, (mkPairRow (some a) (some b)).change_type = ChangeType.Modified) ∧
    (∀ a : Nat × Str, (mkPairRow (some a) none).change_type = ChangeType.Delete) ∧
    (∀ b : Nat × Str, (mkPairRow none (some b)).change_type = ChangeType.Insert) := by
  refine ⟨fun a b => ?_, fun a => rfl, fun b => rfl⟩
  rw [mkPairRow]
  split <;> rfl

/-- **C2**: a maximal Delete run immediately followed by a maximal
Insert run is paired index-wise: the walk emits `pairRows` of the two
numbered runs, row `j` of which holds deletion `j` and insertion `j`
when present, with kind Modified when both exist and Delete/Insert when
only one does; concretely `"a\nb\n"` vs `"b\nc\n"` yields
`[Delete(a), Equal(b/b), Insert(c)]` and `"x\n"` vs `"y\n"` yields one
Modified row pairing x with y. -/
theorem compute_side_by_side_pairing :
    (∀ (tab_width o n : Nat) (dels ins rest : List Change),
      dels ≠ [] → (∀ c ∈ dels, c.tag = Tag.delete) → (∀ c ∈ ins, c.tag = Tag.insert) →
      (∀ c, rest.head? = some c →
        c.tag ≠ Tag.insert ∧ (ins = [] → c.tag ≠ Tag.delete)) →
      sbsWalk tab_width o n (dels ++ ins ++ rest) =
        pairRows (withNums o (dels.map (fun c => procText tab_width c.value)))
                 (withNums n (ins.map (fun c => procText tab_width c.value))) ++
          sbsWalk tab_width (o + dels.length) (n + ins.length) rest) ∧
    (∀ (ds is : List (Nat × Str)) (j : Nat), j < max ds.length is.length →
      (pairRows ds is)[j]? = some (mkPairRow ds[j]? is[j]?)) ∧
    (∀ (d i : Option (Nat × Str)),
      (mkPairRow d i).old_line = d ∧ (mkPairRow d i).new_line = i) ∧
    (∀ a b : Nat × Str, (mkPairRow (some a) (some b)).change_type = ChangeType.Modified) ∧
    (∀ a : Nat × Str, (mkPairRow (some a) none).change_type = ChangeType.Delete) ∧
    (∀ b : Nat × Str, (mkPairRow none (some b)).change_type = ChangeType.Insert) ∧
    compute_side_by_side "a\nb\n".data "b\nc\n".data 4 =
      [⟨some (1, ['a']), none, ChangeType.Delete, none, none⟩,
       ⟨some (2, ['b']), some (1, ['b']), ChangeType.Equal, none, none⟩,
       ⟨none, some (2, ['c']), ChangeType.Insert, none, none⟩] ∧
    compute_side_by_side "x\n".data "y\n".data 4 =
      [⟨some (1, ['x']), some (1, ['y']), ChangeType.Modified, none, none⟩] := by
  refine ⟨sbsWalk_run, pairRows_getElem?,
    fun d i => ⟨mkPairRow_old_line d i, mkPairRow_new_line d i⟩,
    mkPairRow_change_type.1, mkPairRow_change_type.2.1, mkPairRow_change_type.2.2, ?_, ?_⟩
  · simp [compute_side_by_side, splitLinesKeep, lcsDiff, lcsLen, sbsWalk, hasTag, pairRows,
      mkPairRow, compute_word_diff, tokWords, charClass, unchangedLen, byteLen, trimStr,
      trimEnd, procText, expand_tabs, expandTabsGo, withNums, wordSegsOld, wordSegsNew,
      has_meaningful_content, Char.utf8Size]
  · simp [compute_side_by_side, splitLinesKeep, lcsDiff, lcsLen, sbsWalk, hasTag, pairRows,
      mkPairRow, compute_word_diff, tokWords, charClass, unchangedLen, byteLen, trimStr,
      trimEnd, procText, expand_tabs, expandTabsGo, withNums, wordSegsOld, wordSegsNew,
      has_meaningful_content, Char.utf8Size]

/-- Witness for C2: the run lemma applied to the single-delete,
single-insert stream, and the pairing at index 0. -/
theorem compute_side_by_side_pairing_witness :
    sbsWalk 4 1 1 ([⟨Tag.delete, ['x']⟩] ++ [⟨Tag.insert, ['y']⟩] ++ []) =
      pairRows (withNums 1 ([(⟨Tag.delete, ['x']⟩ : Change)].map (fun c => procText 4 c.value)))
               (withNums 1 ([(⟨Tag.insert, ['y']⟩ : Change)].map (fun c => procText 4 c.value))) ++
        sbsWalk 4 (1 + [(⟨Tag.delete, ['x']⟩ : Change)].length)
          (1 + [(⟨Tag.insert, ['y']⟩ : Change)].length) [] ∧
    (pairRows [(1, ['x'])] [(1, ['y'])])[0]? =
      some (mkPairRow [((1 : Nat), ['x'])][0]? [((1 : Nat), ['y'])][0]?) :=
  ⟨compute_side_by_side_pairing.1 4 1 1 _ _ _ (by simp) (by decide) (by decide) (by simp),
   compute_side_by_side_pairing.2.1 [(1, ['x'])] [(1, ['y'])] 0 (by decide)⟩

/-- Witness for C1 at the Modified row produced for
`"foo bar"` vs `"foo baz"`. -/
theorem compute_side_by_side_roundtrip_witness :
    ∃ po pn,
      (⟨some (1, "foo bar".data), some (1, "foo baz".data), ChangeType.Modified,
        some [⟨"foo".data, false⟩, ⟨" ".data, false⟩, ⟨"bar".data, true⟩],
        some [⟨"foo".data, false⟩, ⟨" ".data, false⟩, ⟨"baz".data, true⟩]⟩ : DiffLine).old_line =
          some po ∧
      (⟨some (1, "foo bar".data), some (1, "foo baz".data), ChangeType.Modified,
        some [⟨"foo".data, false⟩, ⟨" ".data, false⟩, ⟨"bar".data, true⟩],
        some [⟨"foo".data, false⟩, ⟨" ".data, false⟩, ⟨"baz".data, true⟩]⟩ : DiffLine).new_line =
          some pn ∧
      segConcat [⟨"foo".data, false⟩, ⟨" ".data, false⟩, ⟨"bar".data, true⟩] = po.2 ∧
      segConcat [⟨"foo".data, false⟩, ⟨" ".data, false⟩, ⟨"baz".data, true⟩] = pn.2 :=
  compute_side_by_side_roundtrip "foo bar\n".data "foo baz\n".data 4 _ _ _
    (by simp [compute_side_by_side, splitLinesKeep, lcsDiff, lcsLen, sbsWalk, hasTag, pairRows,
      mkPairRow, compute_word_diff, tokWords, charClass, unchangedLen, byteLen, trimStr,
      trimEnd, procText, expand_tabs, expandTabsGo, withNums, wordSegsOld, wordSegsNew,
      has_meaningful_content, Char.utf8Size])
    (by decide) (by decide)

end Lumen
